import Mathlib

/-!
Shallow embedding of the FRI folding / parameter-derivation layer
(crates/core/src/protocols/fri/common.rs), the packed extension-field
arithmetic (crates/field/src/packed_extension_ops.rs), the batched
univariate zerocheck round (crates/core/src/protocols/sumcheck/prove/
batch_prove_univariate_zerocheck.rs) and the u8 multiplication lookup
gadget (crates/circuits/src/lasso/u8mul.rs), together with theorems
settling the specification claims about them.

Rust `usize` values are modelled as `Nat`; slices are modelled as `List`;
in-place slice writes are modelled with `List.set`; fallible functions
return `Except`.
-/

/-! ## Data model: Reed-Solomon code parameters (fri/common.rs)

`subspace_eval` models `rs_code.get_ntt().get_subspace_eval(round, index)`,
the twiddle factor supplied by the external additive-NTT collaborator; it is
kept abstract as a field of the structure. -/

structure ReedSolomonCode (F : Type) where
  log_dim : Nat
  log_inv_rate : Nat
  subspace_eval : Nat → Nat → F

def ReedSolomonCode.log_len {F : Type} (c : ReedSolomonCode F) : Nat :=
  c.log_dim + c.log_inv_rate

/-- The error enum of the FRI protocol module (the variants the claims mention). -/
inductive FriError where
  | RoundVCSLengthsOutOfRange
  | RoundVCSLengthsNotPowerOfTwo
  | RoundVCSLengthsNotDescending
  | ParameterError
deriving DecidableEq, Repr

/-! ## fold_pair / fold_chunk (fri/common.rs lines 17-88) -/

/-- Modelled from the spec: the affine two-point interpolation
`extrapolate_line(u, v, r) = u + r * (v + u)` under characteristic-2
arithmetic (spec section 4.2; the function itself lives outside the
excerpted core). -/
def extrapolate_line {F : Type} [Add F] [Mul F] (u v r : F) : F :=
  u + r * (v + u)

/-- One inverse additive-NTT butterfly step combined with affine
interpolation, translated from `fold_pair`. -/
def fold_pair {F : Type} [Add F] [Mul F] (rs_code : ReedSolomonCode F)
    (round index : Nat) (values : F × F) (r : F) : F :=
  let t := rs_code.subspace_eval round index
  let u := values.1
  let v := values.2
  let v := v + u
  let u := u + v * t
  extrapolate_line u v r

/-- The inner loop of `fold_chunk` for one round: the (2i) and (2i+1)th cells
of the scratch buffer are folded in-place into the i-th cell, for
`index_offset` in `0..new_scratch_buffer_len`.  In-place writes on the slice
are modelled with `List.set`. -/
def fold_chunk_round {F : Type} [Add F] [Mul F] [Inhabited F]
    (rs_code : ReedSolomonCode F) (round chunk_index n_remaining_challenges : Nat)
    (r : F) (new_scratch_buffer_len : Nat) (buf : List F) : List F :=
  (List.range new_scratch_buffer_len).foldl (fun buf index_offset =>
    buf.set index_offset
      (fold_pair rs_code round ((chunk_index <<< (n_remaining_challenges - 1)) + index_offset)
        (buf.getD (index_offset <<< 1) default, buf.getD ((index_offset <<< 1) + 1) default) r))
    buf

/-- Translation of `fold_chunk`: copies `values` into the scratch buffer,
folds it with the challenges one by one (halving the active length each
round), and returns cell 0.  The `scratch_buffer` argument only supplies
storage in the source; the copy is modelled by starting from `values`. -/
def fold_chunk {F : Type} [Add F] [Mul F] [Inhabited F]
    (rs_code : ReedSolomonCode F) (start_round chunk_index : Nat)
    (values : List F) (folding_challenges : List F) (scratch_buffer : List F) : F :=
  let _ := scratch_buffer
  let final :=
    (List.range folding_challenges.length).foldl (fun buf n_challenges_processed =>
      let n_remaining_challenges := folding_challenges.length - n_challenges_processed
      let scratch_buffer_len := values.length >>> n_challenges_processed
      let new_scratch_buffer_len := scratch_buffer_len >>> 1
      fold_chunk_round rs_code (start_round + n_challenges_processed) chunk_index
        n_remaining_challenges (folding_challenges.getD n_challenges_processed default)
        new_scratch_buffer_len buf)
      values
  final.getD 0 default

/-- The claim's description of the fold: apply `fold_pair` once per challenge,
producing a fresh half-length buffer each round, where in the step with
`n_remaining` challenges left buffer slot `j` is folded from slots `2j` and
`2j+1` using index `(chunk_index <<< (n_remaining - 1)) + j`, and the final
buffer slot 0 is returned. -/
def fold_chunk_spec {F : Type} [Add F] [Mul F] [Inhabited F]
    (rs_code : ReedSolomonCode F) (chunk_index : Nat) :
    Nat → List F → List F → F
  | _, [], buf => buf.getD 0 default
  | round, r :: rest, buf =>
      let folded := (List.range (buf.length >>> 1)).map (fun j =>
        fold_pair rs_code round ((chunk_index <<< rest.length) + j)
          (buf.getD (2 * j) default, buf.getD (2 * j + 1) default) r)
      fold_chunk_spec rs_code chunk_index (round + 1) rest folded

/-! ## Round VCS validation and commit rounds (fri/common.rs lines 90-183) -/

/-- Model of `usize::is_power_of_two` (standard library contract: true
exactly on powers of two). -/
def is_power_of_two (n : Nat) : Bool :=
  n != 0 && n == 2 ^ Nat.log 2 n

/-- Model of `p3_util::log2_strict_usize`: base-2 logarithm, meaningful on
powers of two (the source only applies it after validation). -/
def log2_strict_usize (n : Nat) : Nat :=
  Nat.log 2 n

/-- Translation of `validate_round_vcss`; a round VCS is represented by its
`vector_len`.  `windows(2)` over the list is modelled by zipping the list
with its tail. -/
def validate_round_vcss {F : Type} (rs_code : ReedSolomonCode F)
    (round_vcss : List Nat) : Except FriError Unit :=
  if round_vcss.any (fun len =>
      decide (len ≤ 1 <<< rs_code.log_inv_rate) || decide (1 <<< rs_code.log_len ≤ len)) then
    .error .RoundVCSLengthsOutOfRange
  else if round_vcss.any (fun len => ! is_power_of_two len) then
    .error .RoundVCSLengthsNotPowerOfTwo
  else if (round_vcss.zip round_vcss.tail).any (fun w => decide (w.1 ≤ w.2)) then
    .error .RoundVCSLengthsNotDescending
  else
    .ok ()

/-- Translation of `calculate_fold_commit_rounds`. -/
def calculate_fold_commit_rounds {F : Type} (rs_code : ReedSolomonCode F)
    (round_vcss : List Nat) : Except FriError (List Nat) :=
  match validate_round_vcss rs_code round_vcss with
  | .error e => .error e
  | .ok _ =>
      .ok (round_vcss.map (fun len => rs_code.log_len - 1 - log2_strict_usize len))

/-- Translation of `calculate_fold_chunk_start_rounds`: the source fills a
zero vector of length `n+1` and writes `fold_commit_rounds[i] + 1` into slot
`i+1`, which yields `0 :: (fold_commit_rounds.map (· + 1))`. -/
def calculate_fold_chunk_start_rounds (fold_commit_rounds : List Nat) : List Nat :=
  0 :: fold_commit_rounds.map (fun fold_commit_round => fold_commit_round + 1)

/-- Translation of `calculate_folding_arities`: successive differences over
the start rounds chained with the final boundary `total_fold_rounds`
(`tuple_windows` is modelled by zipping the chained list with its tail;
`usize` subtraction is modelled by truncating `Nat` subtraction). -/
def calculate_folding_arities (total_fold_rounds : Nat)
    (fold_chunk_start_rounds : List Nat) : List Nat :=
  let chained := fold_chunk_start_rounds ++ [total_fold_rounds]
  List.zipWith (fun prev_start_round next_start_round =>
    next_start_round - prev_start_round) chained chained.tail

/-! ## Packed extension-field operations (field/packed_extension_ops.rs)

A packed base-field vector of width `W` is modelled as a `List B` of length
`W`; a packed extension-field vector of width `We` over a degree-`D`
extension is modelled as a `List (List B)` of `We` lanes of `D` base-field
coordinates each (the spec's bit-layout contract: lane `j` coordinate `c`
occupies base-lane position `j * D + c`).  Since `PE::cast_base` maps `PE`
to `PE::PackedSubfield`, the packed subfield width is `We * D`. -/

/-- The error enum of the field crate (the variant the claims mention). -/
inductive FieldError where
  | MismatchedLengths
deriving DecidableEq, Repr

/-- Modelled from the spec and the in-source doc comment (packed extension
ops lines 48-52): `spread_unchecked(log_n, block_idx)` with
`log_n = PE::LOG_WIDTH` returns the block `block_idx` of `We` consecutive
base scalars of the vector, each repeated `D = (We * D) / We` times in a
row, bit-aligned with the extension lanes. -/
def spread_unchecked {B : Type} [Inhabited B] (We D : Nat) (r : List B)
    (block_idx : Nat) : List B :=
  (List.range (We * D)).map (fun j => r.getD (block_idx * We + j / D) default)

/-- Translation of `get_rhs_at_pe_idx` (lines 27-40); `PE::WIDTH = We` and
`PE::PackedSubfield::WIDTH = We * D`. -/
def get_rhs_at_pe_idx {B : Type} [Inhabited B] (We D : Nat)
    (rhs : List (List B)) (i : Nat) : List B :=
  let bottom_most_scalar_idx := i * We
  let bottom_most_scalar_idx_in_subfield_arr := bottom_most_scalar_idx / (We * D)
  let bottom_most_scalar_idx_within_packed_subfield := bottom_most_scalar_idx % (We * D)
  let block_idx := bottom_most_scalar_idx_within_packed_subfield / We
  spread_unchecked We D (rhs.getD bottom_most_scalar_idx_in_subfield_arr [])
    block_idx

/-- Modelled from the spec: `PE::cast_base` reinterprets an extension packed
vector as its `We * D` base-field coordinates in bit-layout order. -/
def cast_base {B : Type} [Inhabited B] (D : Nat) (e : List (List B)) : List B :=
  (List.range (e.length * D)).map (fun k => (e.getD (k / D) []).getD (k % D) default)

/-- Modelled from the spec: `PE::cast_ext` reinterprets `We * D` base-field
coordinates as an extension packed vector of `We` lanes of `D` coordinates. -/
def cast_ext {B : Type} [Inhabited B] (We D : Nat) (v : List B) : List (List B) :=
  (List.range We).map (fun j => (List.range D).map (fun c => v.getD (j * D + c) default))

/-- The multiplication closure passed by `ext_base_mul` (line 13):
`PE::cast_ext(lhs.cast_base() * broadcasted_rhs)`, the packed subfield
multiplication acting lane-wise. -/
def ext_base_mul_op {B : Type} [Mul B] [Inhabited B] (We D : Nat)
    (lhs_elem : List (List B)) (broadcasted_rhs : List B) : List (List B) :=
  cast_ext We D (List.zipWith (fun x y => x * y) (cast_base D lhs_elem) broadcasted_rhs)

/-- Translation of `ext_base_op` (lines 53-75): length-check, then overwrite
every element of `lhs` with `op` of itself and the broadcast of the matching
`rhs` scalars.  The in-place update is modelled by returning the final
contents of the `lhs` buffer next to the `Result`. -/
def ext_base_op {B : Type} [Inhabited B] (We D : Nat)
    (lhs : List (List (List B))) (rhs : List (List B))
    (op : List (List B) → List B → List (List B)) :
    Except FieldError Unit × List (List (List B)) :=
  if lhs.length ≠ rhs.length * D then
    (.error .MismatchedLengths, lhs)
  else
    (.ok (), lhs.mapIdx (fun i lhs_elem => op lhs_elem (get_rhs_at_pe_idx We D rhs i)))

/-- Translation of `ext_base_op_par` (lines 79-102): the rayon variant runs
the identical per-element computation over disjoint elements, so the data
parallelism has no observable effect in the functional model. -/
def ext_base_op_par {B : Type} [Inhabited B] (We D : Nat)
    (lhs : List (List (List B))) (rhs : List (List B))
    (op : List (List B) → List B → List (List B)) :
    Except FieldError Unit × List (List (List B)) :=
  if lhs.length ≠ rhs.length * D then
    (.error .MismatchedLengths, lhs)
  else
    (.ok (), lhs.mapIdx (fun i lhs_elem => op lhs_elem (get_rhs_at_pe_idx We D rhs i)))

/-- Translation of `ext_base_mul` (lines 7-14). -/
def ext_base_mul {B : Type} [Mul B] [Inhabited B] (We D : Nat)
    (lhs : List (List (List B))) (rhs : List (List B)) :
    Except FieldError Unit × List (List (List B)) :=
  ext_base_op We D lhs rhs
    (fun lhs broadcasted_rhs => ext_base_mul_op We D lhs broadcasted_rhs)

/-- Translation of `ext_base_mul_par` (lines 16-25). -/
def ext_base_mul_par {B : Type} [Mul B] [Inhabited B] (We D : Nat)
    (lhs : List (List (List B))) (rhs : List (List B)) :
    Except FieldError Unit × List (List (List B)) :=
  ext_base_op_par We D lhs rhs
    (fun lhs broadcasted_rhs => ext_base_mul_op We D lhs broadcasted_rhs)

/-- Scalar number `i` of a packed extension slice (`get_packed_slice`). -/
def get_packed_slice_ext {B : Type} (We : Nat)
    (lhs : List (List (List B))) (i : Nat) : List B :=
  (lhs.getD (i / We) []).getD (i % We) []

/-- Scalar number `i` of a packed base slice (`get_packed_slice`). -/
def get_packed_slice_base {B : Type} [Inhabited B] (Wb : Nat)
    (rhs : List (List B)) (i : Nat) : B :=
  (rhs.getD (i / Wb) []).getD (i % Wb) default

/-! ## u8 multiplication lookup gadget (lasso/u8mul.rs)

Field elements `B32`/`B16` enter the gadget only through `B32::new` /
`B16::new` applied to integer payloads, so the combined lookup values are
modelled by their integer payloads; the `as u32` cast is modelled by
`% 2 ^ 32`. -/

/-- The per-row combined `lookup_u` value built by the witness loop of
`u8mul` (u8mul.rs lines 97-104): `lookup_index = a << 8 | b` and the value
is `lookup_index << 16 | a * b`. -/
def u8mul_lookup_u_value (a_int b_int : Nat) : Nat :=
  let ab_product := a_int * b_int
  let lookup_index := a_int <<< 8 ||| b_int
  (lookup_index <<< 16 ||| ab_product) % 2 ^ 32

/-- The lookup index recomputed by the `lookup_t` table loop from a row
position (u8mul.rs lines 108-111). -/
def u8mul_lookup_index_of_row (i : Nat) : Nat :=
  let a_int := (i >>> 8) &&& 0xff
  let b_int := i &&& 0xff
  a_int <<< 8 ||| b_int

/-- One iteration of the `lookup_t` table loop (u8mul.rs lines 107-114):
recompute `(a, b)` from the row position, rebuild the lookup index, check
the internal consistency assertion (`assert_eq!`, modelled as `Option`
where `none` is the panic), and produce the combined table value. -/
def u8mul_lookup_t_entry (i : Nat) : Option Nat :=
  let a_int := (i >>> 8) &&& 0xff
  let b_int := i &&& 0xff
  let ab_product := a_int * b_int
  let lookup_index := a_int <<< 8 ||| b_int
  if lookup_index = i then some ((lookup_index <<< 16 ||| ab_product) % 2 ^ 32) else none

/-- The whole `lookup_t` witness column: all `2^16` rows, `none` if any
internal consistency assertion fires. -/
def u8mul_lookup_t_table : Option (List Nat) :=
  (List.range (2 ^ 16)).mapM u8mul_lookup_t_entry

/-- Modelled from the spec: the three disjoint bit windows of a combined
lookup value (a in the high window, bits 24-31; b in the middle window,
bits 16-23; the product in the low window, bits 0-15). -/
def u8mul_decode_triple (v : Nat) : Nat × Nat × Nat :=
  ((v >>> 24) &&& 0xff, (v >>> 16) &&& 0xff, v &&& 0xffff)

/-! ## Batched univariate zerocheck round
(sumcheck/prove/batch_prove_univariate_zerocheck.rs)

The per-prover behaviour behind the `UnivariateZerocheckProver` trait and
the `LagrangeRoundEvals` operations live outside the excerpted core; the
trait is modelled as a record of functions and the Lagrange operations as
explicit operation parameters.  The Fiat-Shamir transcript
(`CanSample + CanWrite`) is modelled as a challenge stream with a sample
counter plus the list of scalar slices written so far. -/

/-- The error enum of the sumcheck module: the variants the claims mention,
plus a catch-all constructor standing for every other variant a prover
implementation may raise. -/
inductive SumcheckError where
  | ClaimsOutOfOrder
  | TooManySkippedRounds
  | IncorrectZerosPrefixLen
  | other (code : Nat)
deriving DecidableEq, Repr

/-- A Lagrange-basis univariate round message together with its explicit
zero-prefix length. -/
structure LagrangeRoundEvals (F : Type) where
  zeros_prefix_len : Nat
  evals : List F
deriving DecidableEq

/-- Modelled from the spec: `LagrangeRoundEvals::zeros(n)`, the identically
zero round message on a domain of size `n` (the whole domain is the
structurally-known zero region, with no explicit evaluations). -/
def LagrangeRoundEvals.zeros (F : Type) (zeros_prefix_len : Nat) :
    LagrangeRoundEvals F :=
  { zeros_prefix_len := zeros_prefix_len, evals := [] }

/-- The external operations on Lagrange round messages (defined in the
sumcheck `univariate` module, outside the excerpted core): scaling by a
batch coefficient and the fallible `add_assign_lagrange`. -/
structure LagrangeOps (F : Type) where
  smul : LagrangeRoundEvals F → F → LagrangeRoundEvals F
  add_assign_lagrange : LagrangeRoundEvals F → LagrangeRoundEvals F →
    Except SumcheckError (LagrangeRoundEvals F)

/-- Model of the `UnivariateZerocheckProver` trait object: a claim size, a
domain-size function, the univariate round execution and the folding into a
regular prover of type `R`. -/
structure UnivariateZerocheckProver (F R : Type) where
  n_vars : Nat
  domain_size : Nat → Nat
  execute_univariate_round : Nat → Nat → F →
    Except SumcheckError (LagrangeRoundEvals F)
  fold_univariate_round : F → Except SumcheckError R

/-- Fiat-Shamir transcript model: a challenge stream with a sample counter,
and the list of scalar slices written so far. -/
structure Transcript (F : Type) where
  stream : Nat → F
  n_sampled : Nat
  written : List (List F)

/-- `CanSample::sample`: the next stream element, advancing the counter. -/
def Transcript.sample {F : Type} (t : Transcript F) : F × Transcript F :=
  (t.stream t.n_sampled, { t with n_sampled := t.n_sampled + 1 })

/-- `CanWrite::write_scalar_slice`: append one scalar slice. -/
def Transcript.write_scalar_slice {F : Type} (t : Transcript F)
    (evals : List F) : Transcript F :=
  { t with written := t.written ++ [evals] }

/-- Model of `binius_utils::sorting::is_sorted_ascending` (every element at
most the next). -/
def is_sorted_ascending (l : List Nat) : Bool :=
  (l.zip l.tail).all (fun w => decide (w.1 ≤ w.2))

/-- `max_n_vars`: the `n_vars` of the first prover, 0 if none (line 89). -/
def batch_max_n_vars {F R : Type}
    (provers : List (UnivariateZerocheckProver F R)) : Nat :=
  ((provers.head?).map (fun p => p.n_vars)).getD 0

/-- `min_n_vars`: the `n_vars` of the last prover, 0 if none (line 90). -/
def batch_min_n_vars {F R : Type}
    (provers : List (UnivariateZerocheckProver F R)) : Nat :=
  ((provers.getLast?).map (fun p => p.n_vars)).getD 0

/-- `max_domain_size`: the maximum over provers of the domain size at the
right-aligned skip depth, 0 if none (lines 96-100). -/
def batch_max_domain_size {F R : Type}
    (provers : List (UnivariateZerocheckProver F R)) (skip_rounds : Nat) : Nat :=
  (provers.map (fun p =>
    p.domain_size (skip_rounds + p.n_vars - batch_max_n_vars provers))).foldl max 0

/-- The accumulation loop of `batch_prove_zerocheck_univariate_round`
(lines 102-115): per prover in order, sample a batch coefficient from the
transcript, execute its univariate round at the right-aligned skip depth,
scale by the coefficient and accumulate with `add_assign_lagrange`.  The
loop state (transcript, collected coefficients, running sum) is threaded as
arguments; `?` is `Except` propagation. -/
def accumulate_univariate_round {F R : Type} (ops : LagrangeOps F)
    (skip_rounds max_n_vars max_domain_size : Nat) :
    List (UnivariateZerocheckProver F R) → Transcript F → List F →
    LagrangeRoundEvals F →
    Except SumcheckError (Transcript F × List F × LagrangeRoundEvals F)
  | [], t, batch_coeffs, round_evals => .ok (t, batch_coeffs, round_evals)
  | prover :: provers, t, batch_coeffs, round_evals =>
      let (next_batch_coeff, t2) := t.sample
      prover.execute_univariate_round (skip_rounds + prover.n_vars - max_n_vars)
          max_domain_size next_batch_coeff >>= fun prover_round_evals =>
      ops.add_assign_lagrange round_evals
          (ops.smul prover_round_evals next_batch_coeff) >>= fun round_evals2 =>
      accumulate_univariate_round ops skip_rounds max_n_vars max_domain_size
        provers t2 (batch_coeffs ++ [next_batch_coeff]) round_evals2

structure BatchProveStart (F R : Type) where
  batch_coeffs : List F
  reduction_provers : List R

structure BatchZerocheckUnivariateProveOutput (F R : Type) where
  univariate_challenge : F
  batch_prove_start : BatchProveStart F R

/-- Translation of `batch_prove_zerocheck_univariate_round` (lines 74-142):
ordering check, skip budget check, batched accumulation starting from the
zero message on the maximal domain, zero-prefix check, writing the
accumulated evaluations, sampling the univariate challenge, folding every
prover at it.  `bail!` is an early `Except.error`; the transcript is
threaded explicitly and returned next to the output. -/
def batch_prove_zerocheck_univariate_round {F R : Type} (ops : LagrangeOps F)
    (provers : List (UnivariateZerocheckProver F R)) (skip_rounds : Nat)
    (transcript : Transcript F) :
    Except SumcheckError
      (BatchZerocheckUnivariateProveOutput F R × Transcript F) :=
  if !(is_sorted_ascending ((provers.map (fun p => p.n_vars)).reverse)) then
    .error .ClaimsOutOfOrder
  else if batch_max_n_vars provers - batch_min_n_vars provers > skip_rounds then
    .error .TooManySkippedRounds
  else
    accumulate_univariate_round ops skip_rounds (batch_max_n_vars provers)
        (batch_max_domain_size provers skip_rounds) provers transcript []
        (LagrangeRoundEvals.zeros F (batch_max_domain_size provers skip_rounds))
      >>= fun acc =>
    let (t, batch_coeffs, round_evals) := acc
    let zeros_prefix_len :=
      min (1 <<< (skip_rounds + batch_min_n_vars provers - batch_max_n_vars provers))
        (batch_max_domain_size provers skip_rounds)
    if zeros_prefix_len ≠ round_evals.zeros_prefix_len then
      .error .IncorrectZerosPrefixLen
    else
      let t2 := t.write_scalar_slice round_evals.evals
      let (univariate_challenge, t3) := t2.sample
      (provers.mapM (fun prover =>
          prover.fold_univariate_round univariate_challenge)) >>= fun reduction_provers =>
      .ok ({ univariate_challenge := univariate_challenge,
             batch_prove_start := { batch_coeffs := batch_coeffs,
                                    reduction_provers := reduction_provers } }, t3)

/-! ## Helper lemmas -/

theorem is_power_of_two_iff (n : Nat) :
    is_power_of_two n = true ↔ ∃ k, n = 2 ^ k := by
  unfold is_power_of_two
  simp only [Bool.and_eq_true, bne_iff_ne, ne_eq, beq_iff_eq]
  constructor
  · rintro ⟨_, h⟩
    exact ⟨Nat.log 2 n, h⟩
  · rintro ⟨k, rfl⟩
    refine ⟨Nat.pos_iff_ne_zero.mp (Nat.pos_pow_of_pos k (by norm_num)), ?_⟩
    rw [Nat.log_pow (by norm_num)]

theorem zip_tail_any_le_eq_false_iff (l : List Nat) :
    ((l.zip l.tail).any (fun w => decide (w.1 ≤ w.2)) = false)
      ↔ List.Chain' (fun a b => a > b) l := by
  induction l with
  | nil => simp
  | cons a t ih =>
      cases t with
      | nil => simp
      | cons b t2 =>
          rw [List.chain'_cons]
          simp only [List.tail_cons] at ih ⊢
          rw [List.zip_cons_cons, List.any_cons]
          simp only [Bool.or_eq_false_iff, decide_eq_false_iff_not, Nat.not_le, gt_iff_lt]
          exact and_congr Iff.rfl ih

theorem any_out_of_range_iff {F : Type} (rs_code : ReedSolomonCode F)
    (round_vcss : List Nat) :
    (round_vcss.any (fun len =>
        decide (len ≤ 1 <<< rs_code.log_inv_rate)
          || decide (1 <<< rs_code.log_len ≤ len)) = true)
      ↔ ∃ len ∈ round_vcss,
          ¬(2 ^ rs_code.log_inv_rate < len ∧ len < 2 ^ rs_code.log_len) := by
  have hshift : ∀ k : Nat, (1 : Nat) <<< k = 2 ^ k := fun k => by
    rw [Nat.shiftLeft_eq, Nat.one_mul]
  simp only [List.any_eq_true, Bool.or_eq_true, decide_eq_true_eq, hshift]
  constructor
  · rintro ⟨len, hmem, h⟩; exact ⟨len, hmem, by omega⟩
  · rintro ⟨len, hmem, h⟩; exact ⟨len, hmem, by omega⟩

theorem any_not_power_of_two_iff (round_vcss : List Nat) :
    (round_vcss.any (fun len => ! is_power_of_two len) = true)
      ↔ ∃ len ∈ round_vcss, ¬∃ k, len = 2 ^ k := by
  simp only [List.any_eq_true, Bool.not_eq_true']
  constructor
  · rintro ⟨len, hmem, h⟩
    refine ⟨len, hmem, fun hk => ?_⟩
    rw [← is_power_of_two_iff] at hk
    rw [hk] at h; cases h
  · rintro ⟨len, hmem, h⟩
    refine ⟨len, hmem, ?_⟩
    cases hcase : is_power_of_two len with
    | false => rfl
    | true => exact absurd ((is_power_of_two_iff len).mp hcase) h

theorem cfcr_eq_out_of_range {F : Type} (rs_code : ReedSolomonCode F)
    (round_vcss : List Nat)
    (h : ∃ len ∈ round_vcss,
        ¬(2 ^ rs_code.log_inv_rate < len ∧ len < 2 ^ rs_code.log_len)) :
    calculate_fold_commit_rounds rs_code round_vcss
      = .error .RoundVCSLengthsOutOfRange := by
  unfold calculate_fold_commit_rounds validate_round_vcss
  rw [(any_out_of_range_iff rs_code round_vcss).mpr h]
  simp

theorem cfcr_eq_not_power_of_two {F : Type} (rs_code : ReedSolomonCode F)
    (round_vcss : List Nat)
    (h1 : ∀ len ∈ round_vcss,
        2 ^ rs_code.log_inv_rate < len ∧ len < 2 ^ rs_code.log_len)
    (h2 : ∃ len ∈ round_vcss, ¬∃ k, len = 2 ^ k) :
    calculate_fold_commit_rounds rs_code round_vcss
      = .error .RoundVCSLengthsNotPowerOfTwo := by
  unfold calculate_fold_commit_rounds validate_round_vcss
  have e1 : (round_vcss.any (fun len =>
      decide (len ≤ 1 <<< rs_code.log_inv_rate)
        || decide (1 <<< rs_code.log_len ≤ len))) = false := by
    cases hc : (round_vcss.any (fun len =>
        decide (len ≤ 1 <<< rs_code.log_inv_rate)
          || decide (1 <<< rs_code.log_len ≤ len))) with
    | false => rfl
    | true =>
        obtain ⟨len, hmem, hlen⟩ := (any_out_of_range_iff rs_code round_vcss).mp hc
        exact absurd (h1 len hmem) hlen
  rw [e1, (any_not_power_of_two_iff round_vcss).mpr h2]
  simp

theorem cfcr_eq_not_descending {F : Type} (rs_code : ReedSolomonCode F)
    (round_vcss : List Nat)
    (h1 : ∀ len ∈ round_vcss,
        2 ^ rs_code.log_inv_rate < len ∧ len < 2 ^ rs_code.log_len)
    (h2 : ∀ len ∈ round_vcss, ∃ k, len = 2 ^ k)
    (h3 : ¬ List.Chain' (fun a b => a > b) round_vcss) :
    calculate_fold_commit_rounds rs_code round_vcss
      = .error .RoundVCSLengthsNotDescending := by
  unfold calculate_fold_commit_rounds validate_round_vcss
  have e1 : (round_vcss.any (fun len =>
      decide (len ≤ 1 <<< rs_code.log_inv_rate)
        || decide (1 <<< rs_code.log_len ≤ len))) = false := by
    cases hc : (round_vcss.any (fun len =>
        decide (len ≤ 1 <<< rs_code.log_inv_rate)
          || decide (1 <<< rs_code.log_len ≤ len))) with
    | false => rfl
    | true =>
        obtain ⟨len, hmem, hlen⟩ := (any_out_of_range_iff rs_code round_vcss).mp hc
        exact absurd (h1 len hmem) hlen
  have e2 : (round_vcss.any (fun len => ! is_power_of_two len)) = false := by
    cases hc : (round_vcss.any (fun len => ! is_power_of_two len)) with
    | false => rfl
    | true =>
        obtain ⟨len, hmem, hlen⟩ := (any_not_power_of_two_iff round_vcss).mp hc
        exact absurd (h2 len hmem) hlen
  have e3 : ((round_vcss.zip round_vcss.tail).any (fun w => decide (w.1 ≤ w.2))) = true := by
    cases hc : ((round_vcss.zip round_vcss.tail).any (fun w => decide (w.1 ≤ w.2))) with
    | true => rfl
    | false => exact absurd ((zip_tail_any_le_eq_false_iff round_vcss).mp hc) h3
  rw [e1, e2, e3]
  simp

theorem cfcr_eq_ok {F : Type} (rs_code : ReedSolomonCode F)
    (round_vcss : List Nat)
    (h1 : ∀ len ∈ round_vcss,
        2 ^ rs_code.log_inv_rate < len ∧ len < 2 ^ rs_code.log_len)
    (h2 : ∀ len ∈ round_vcss, ∃ k, len = 2 ^ k)
    (h3 : List.Chain' (fun a b => a > b) round_vcss) :
    calculate_fold_commit_rounds rs_code round_vcss
      = .ok (round_vcss.map (fun len =>
          rs_code.log_len - 1 - log2_strict_usize len)) := by
  unfold calculate_fold_commit_rounds validate_round_vcss
  have e1 : (round_vcss.any (fun len =>
      decide (len ≤ 1 <<< rs_code.log_inv_rate)
        || decide (1 <<< rs_code.log_len ≤ len))) = false := by
    cases hc : (round_vcss.any (fun len =>
        decide (len ≤ 1 <<< rs_code.log_inv_rate)
          || decide (1 <<< rs_code.log_len ≤ len))) with
    | false => rfl
    | true =>
        obtain ⟨len, hmem, hlen⟩ := (any_out_of_range_iff rs_code round_vcss).mp hc
        exact absurd (h1 len hmem) hlen
  have e2 : (round_vcss.any (fun len => ! is_power_of_two len)) = false := by
    cases hc : (round_vcss.any (fun len => ! is_power_of_two len)) with
    | false => rfl
    | true =>
        obtain ⟨len, hmem, hlen⟩ := (any_not_power_of_two_iff round_vcss).mp hc
        exact absurd (h2 len hmem) hlen
  have e3 : ((round_vcss.zip round_vcss.tail).any (fun w => decide (w.1 ≤ w.2))) = false :=
    (zip_tail_any_le_eq_false_iff round_vcss).mpr h3
  rw [e1, e2, e3]
  simp

/-! ## C5: calculate_fold_commit_rounds error taxonomy and success value -/

/-- C5: `calculate_fold_commit_rounds` returns `RoundVCSLengthsOutOfRange` iff
some descriptor vector length lies outside the open interval
`(2^log_inv_rate, 2^log_len)`; otherwise `RoundVCSLengthsNotPowerOfTwo` iff
some length is not a power of two; otherwise `RoundVCSLengthsNotDescending`
iff the lengths are not strictly descending; and on success it returns
`log_len - 1 - log2(len)` for each descriptor in order. -/
theorem c5_calculate_fold_commit_rounds_spec {F : Type}
    (rs_code : ReedSolomonCode F) (round_vcss : List Nat) :
    (calculate_fold_commit_rounds rs_code round_vcss = .error .RoundVCSLengthsOutOfRange
      ↔ ∃ len ∈ round_vcss,
          ¬(2 ^ rs_code.log_inv_rate < len ∧ len < 2 ^ rs_code.log_len))
    ∧ ((∀ len ∈ round_vcss,
          2 ^ rs_code.log_inv_rate < len ∧ len < 2 ^ rs_code.log_len) →
        (calculate_fold_commit_rounds rs_code round_vcss
            = .error .RoundVCSLengthsNotPowerOfTwo
          ↔ ∃ len ∈ round_vcss, ¬∃ k, len = 2 ^ k))
    ∧ ((∀ len ∈ round_vcss,
          2 ^ rs_code.log_inv_rate < len ∧ len < 2 ^ rs_code.log_len) →
       (∀ len ∈ round_vcss, ∃ k, len = 2 ^ k) →
        (calculate_fold_commit_rounds rs_code round_vcss
            = .error .RoundVCSLengthsNotDescending
          ↔ ¬ List.Chain' (fun a b => a > b) round_vcss))
    ∧ ((∀ len ∈ round_vcss,
          2 ^ rs_code.log_inv_rate < len ∧ len < 2 ^ rs_code.log_len) →
       (∀ len ∈ round_vcss, ∃ k, len = 2 ^ k) →
       List.Chain' (fun a b => a > b) round_vcss →
        calculate_fold_commit_rounds rs_code round_vcss
          = .ok (round_vcss.map (fun len =>
              rs_code.log_len - 1 - log2_strict_usize len))) := by
  refine ⟨?_, ?_, ?_, ?_⟩
  · constructor
    · intro h
      by_contra hc
      push_neg at hc
      by_cases h2 : ∃ len ∈ round_vcss, ¬∃ k, len = 2 ^ k
      · rw [cfcr_eq_not_power_of_two rs_code round_vcss hc h2] at h
        simp at h
      · push_neg at h2
        by_cases h3 : List.Chain' (fun a b => a > b) round_vcss
        · rw [cfcr_eq_ok rs_code round_vcss hc h2 h3] at h
          simp at h
        · rw [cfcr_eq_not_descending rs_code round_vcss hc h2 h3] at h
          simp at h
    · exact cfcr_eq_out_of_range rs_code round_vcss
  · intro hall
    constructor
    · intro h
      by_contra hc
      push_neg at hc
      by_cases h3 : List.Chain' (fun a b => a > b) round_vcss
      · rw [cfcr_eq_ok rs_code round_vcss hall hc h3] at h
        simp at h
      · rw [cfcr_eq_not_descending rs_code round_vcss hall hc h3] at h
        simp at h
    · exact cfcr_eq_not_power_of_two rs_code round_vcss hall
  · intro hall hallpow
    constructor
    · intro h
      by_contra h3
      rw [cfcr_eq_ok rs_code round_vcss hall hallpow h3] at h
      simp at h
    · exact cfcr_eq_not_descending rs_code round_vcss hall hallpow
  · exact cfcr_eq_ok rs_code round_vcss

/-- C5 witness at a concrete code and descriptor list. -/
theorem c5_witness :
    (∀ len ∈ [8, 4], 2 ^ (1 : Nat) < len ∧ len < 2 ^ (4 : Nat)) ∧
    calculate_fold_commit_rounds
        (⟨3, 1, fun _ _ => (0 : Nat)⟩ : ReedSolomonCode Nat) [8, 4]
      = .ok ([8, 4].map (fun len => 4 - 1 - log2_strict_usize len)) := by
  refine ⟨by decide, ?_⟩
  exact c5_calculate_fold_commit_rounds_spec
      (⟨3, 1, fun _ _ => (0 : Nat)⟩ : ReedSolomonCode Nat) [8, 4] |>.2.2.2
    (by decide)
    (by rintro len hmem
        simp only [List.mem_cons, List.not_mem_nil, or_false] at hmem
        rcases hmem with rfl | rfl
        · exact ⟨3, rfl⟩
        · exact ⟨2, rfl⟩)
    (by norm_num [List.chain'_cons])

/-! ## C9: fold chunk start rounds and folding arities -/

theorem chain_le_sum_sub (l : List Nat) (a : Nat)
    (h : List.Chain' (fun x y => x ≤ y) (a :: l)) :
    (List.zipWith (fun prev next => next - prev) (a :: l) l).sum + a
      = (a :: l).getLastD 0 := by
  induction l generalizing a with
  | nil => simp
  | cons b t2 ih =>
      rw [List.chain'_cons] at h
      have hsum := ih b h.2
      simp only [List.zipWith_cons_cons, List.sum_cons]
      have hlast : (a :: b :: t2).getLastD 0 = (b :: t2).getLastD 0 := by
        simp [List.getLastD_eq_getLast?, List.getLast?_cons_cons]
      omega

theorem chain_le_starts (fold_commit_rounds : List Nat)
    (h : List.Chain' (fun a b => a ≤ b) fold_commit_rounds) :
    List.Chain' (fun a b => a ≤ b)
      (calculate_fold_chunk_start_rounds fold_commit_rounds) := by
  unfold calculate_fold_chunk_start_rounds
  rw [List.chain'_cons']
  refine ⟨fun y _ => Nat.zero_le y, ?_⟩
  rw [List.chain'_map]
  exact h.imp (fun hab => by omega)

/-- C9 counterexample: for the non-monotone commit round list `[1, 0]` and
`total_fold_rounds = 2` (which is at least the last computed start round, 1),
the arities do not sum to `total_fold_rounds`: the start rounds are
`[0, 2, 1]` and the truncating successive differences sum to 3.  (In the
Rust source the corresponding `usize` subtraction `1 - 2` panics in debug
builds and wraps in release builds, so no list of arities summing to 2 is
returned there either.) -/
theorem c9_counterexample :
    (calculate_fold_chunk_start_rounds [1, 0]).getLastD 0 ≤ 2
    ∧ (calculate_folding_arities 2 (calculate_fold_chunk_start_rounds [1, 0])).sum ≠ 2 := by
  decide

/-- C9 (amended): for every commit_rounds list that is **non-decreasing**
(as the documented precondition — being the output of
`calculate_fold_commit_rounds` — guarantees) and every `total_fold_rounds`
at least the last computed start round, `calculate_fold_chunk_start_rounds`
returns `starts` with `starts[0] = 0` and `starts[i+1] = commit_rounds[i] + 1`,
the arities returned by `calculate_folding_arities` sum exactly to
`total_fold_rounds`, and the boundaries are strictly increasing when
`commit_rounds` is strictly increasing. -/
theorem c9_start_rounds_and_arities (commit_rounds : List Nat) (total_fold_rounds : Nat)
    (hmono : List.Chain' (fun a b => a ≤ b) commit_rounds)
    (htotal : (calculate_fold_chunk_start_rounds commit_rounds).getLastD 0 ≤ total_fold_rounds) :
    (calculate_fold_chunk_start_rounds commit_rounds).getD 0 0 = 0
    ∧ (∀ i, i < commit_rounds.length →
        (calculate_fold_chunk_start_rounds commit_rounds).getD (i + 1) 0
          = commit_rounds.getD i 0 + 1)
    ∧ (calculate_folding_arities total_fold_rounds
        (calculate_fold_chunk_start_rounds commit_rounds)).sum = total_fold_rounds
    ∧ (List.Chain' (fun a b => a < b) commit_rounds →
        List.Chain' (fun a b => a < b) (calculate_fold_chunk_start_rounds commit_rounds)) := by
  refine ⟨rfl, ?_, ?_, ?_⟩
  · intro i hi
    simp only [calculate_fold_chunk_start_rounds, List.getD_cons_succ]
    rw [List.getD_eq_getElem _ _ (by simpa using hi), List.getElem_map,
      List.getD_eq_getElem _ _ hi]
  · have hchain : List.Chain' (fun x y => x ≤ y)
        (calculate_fold_chunk_start_rounds commit_rounds ++ [total_fold_rounds]) := by
      rw [List.chain'_append]
      refine ⟨chain_le_starts commit_rounds hmono, List.chain'_singleton total_fold_rounds, ?_⟩
      intro x hx y hy
      simp only [List.head?_cons, Option.mem_def, Option.some.injEq] at hy
      subst hy
      have hlast : (calculate_fold_chunk_start_rounds commit_rounds).getLastD 0 = x := by
        rw [List.getLastD_eq_getLast?, hx]
        rfl
      omega
    have hform : calculate_fold_chunk_start_rounds commit_rounds ++ [total_fold_rounds]
        = 0 :: (commit_rounds.map (fun r => r + 1) ++ [total_fold_rounds]) := by
      simp [calculate_fold_chunk_start_rounds]
    rw [hform] at hchain
    have hsum := chain_le_sum_sub
      (commit_rounds.map (fun r => r + 1) ++ [total_fold_rounds]) 0 hchain
    have hlast2 : (0 :: (commit_rounds.map (fun r => r + 1) ++ [total_fold_rounds])).getLastD 0
        = total_fold_rounds := by
      rw [show (0 :: (commit_rounds.map (fun r => r + 1) ++ [total_fold_rounds]))
          = (0 :: commit_rounds.map (fun r => r + 1)) ++ [total_fold_rounds] by simp]
      exact List.getLastD_concat _ _ _
    rw [hlast2] at hsum
    unfold calculate_folding_arities
    rw [hform]
    simpa using hsum
  · intro hlt
    unfold calculate_fold_chunk_start_rounds
    rw [List.chain'_cons']
    constructor
    · intro y hy
      simp only [List.head?_map, Option.mem_map] at hy
      obtain ⟨c, _, rfl⟩ := hy
      omega
    · rw [List.chain'_map]
      exact hlt.imp (fun hab => by omega)

/-- C9 witness at a concrete monotone commit round list. -/
theorem c9_witness :
    List.Chain' (fun a b => a ≤ b) [0, 1]
    ∧ (calculate_fold_chunk_start_rounds [0, 1]).getLastD 0 ≤ 3
    ∧ (calculate_folding_arities 3 (calculate_fold_chunk_start_rounds [0, 1])).sum = 3 := by
  have hmono : List.Chain' (fun a b => a ≤ b) [0, 1] := by
    norm_num [List.chain'_cons]
  refine ⟨hmono, by decide, ?_⟩
  exact (c9_start_rounds_and_arities [0, 1] 3 hmono (by decide)).2.2.1

/-! ## C7 / C8: lookup value encoding and table assertion -/

theorem shiftLeft_lor_eq_add (a b n : Nat) (hb : b < 2 ^ n) :
    a <<< n ||| b = a * 2 ^ n + b := by
  rw [Nat.shiftLeft_eq, Nat.mul_comm a (2 ^ n)]
  exact (Nat.mul_add_lt_is_or hb a).symm

theorem and_0xff_eq_mod (x : Nat) : x &&& 0xff = x % 256 := by
  have h := Nat.and_pow_two_sub_one_eq_mod x 8
  norm_num at h
  exact h

theorem and_0xffff_eq_mod (x : Nat) : x &&& 0xffff = x % 65536 := by
  have h := Nat.and_pow_two_sub_one_eq_mod x 16
  norm_num at h
  exact h

theorem u8mul_index_roundtrip (i : Nat) (hi : i < 2 ^ 16) :
    u8mul_lookup_index_of_row i = i := by
  have hi' : i < 65536 := by norm_num at hi; exact hi
  unfold u8mul_lookup_index_of_row
  have h2 : (i >>> 8) &&& 0xff = i / 256 % 256 := by
    rw [and_0xff_eq_mod, Nat.shiftRight_eq_div_pow]
  simp only [u8mul_lookup_index_of_row]
  rw [h2, and_0xff_eq_mod, shiftLeft_lor_eq_add _ _ _ (by omega)]
  norm_num
  omega

theorem u8mul_decode_lookup_u : ∀ a, a < 256 → ∀ b, b < 256 →
    u8mul_decode_triple (u8mul_lookup_u_value a b) = (a, b, a * b) := by
  intro a ha b hb
  simp only [u8mul_lookup_u_value, u8mul_decode_triple]
  have hab : a * b < 65536 := by
    calc a * b ≤ 255 * 255 := Nat.mul_le_mul (by omega) (by omega)
    _ < 65536 := by norm_num
  have h1 : a <<< 8 ||| b = a * 256 + b := by
    have h := shiftLeft_lor_eq_add a b 8 (by omega)
    norm_num at h
    exact h
  have h2 : (a * 256 + b) <<< 16 ||| (a * b) = (a * 256 + b) * 65536 + a * b := by
    have h := shiftLeft_lor_eq_add (a * 256 + b) (a * b) 16 (by omega)
    norm_num at h
    exact h
  rw [h1, h2]
  have hc : a * 256 + b < 65536 := by omega
  have hv : ((a * 256 + b) * 65536 + a * b) % 2 ^ 32
      = (a * 256 + b) * 65536 + a * b := Nat.mod_eq_of_lt (by norm_num; omega)
  rw [hv, Nat.shiftRight_eq_div_pow, Nat.shiftRight_eq_div_pow,
    and_0xff_eq_mod, and_0xff_eq_mod, and_0xffff_eq_mod]
  norm_num [Prod.mk.injEq]
  all_goals omega

theorem mapM_eq_some_of_forall {α β : Type} (f : α → Option β) (g : α → β) :
    ∀ l : List α, (∀ x ∈ l, f x = some (g x)) → l.mapM f = some (l.map g) := by
  intro l
  induction l with
  | nil => intro _; rfl
  | cons a t ih =>
      intro h
      rw [List.mapM_cons, h a (List.mem_cons_self a t),
        ih (fun x hx => h x (List.mem_cons_of_mem a hx))]
      rfl

/-- C8: for every row position `i` in `0..2^16`, the re-encoded index
`((i >> 8) & 0xff) << 8 | (i & 0xff)` equals `i`, so the internal
consistency assertion of the `lookup_t` construction loop holds on every
row and the assertion failure branch is unreachable (the table is built in
full, with no row hitting the `none`/panic branch). -/
theorem c8_lookup_t_assertion_unreachable :
    (∀ i, i < 2 ^ 16 → u8mul_lookup_index_of_row i = i)
    ∧ ∃ t, u8mul_lookup_t_table = some t := by
  refine ⟨u8mul_index_roundtrip, ?_⟩
  refine ⟨(List.range (2 ^ 16)).map (fun i =>
    (i <<< 16 ||| (((i >>> 8) &&& 0xff) * (i &&& 0xff))) % 2 ^ 32), ?_⟩
  unfold u8mul_lookup_t_table
  apply mapM_eq_some_of_forall
  intro i hi
  have hidx := u8mul_index_roundtrip i (List.mem_range.mp hi)
  simp only [u8mul_lookup_index_of_row] at hidx
  simp only [u8mul_lookup_t_entry]
  rw [hidx]
  simp

/-- C8 witness: the roundtrip at the concrete row 773 (= 3·256 + 5). -/
theorem c8_witness : u8mul_lookup_index_of_row 773 = 773 :=
  c8_lookup_t_assertion_unreachable.1 773 (by norm_num)

/-- C7: the combined `lookup_u` value places a, b and the product in
disjoint bit windows (a high, b middle, product low) so that decoding
recovers the original `(a, b, product)` triple exactly; the `lookup_t`
table rows carry the same encoding at the decoded `(a, b)` of the row
position; and the encoding is injective on `(a, b, product)` triples. -/
theorem c7_lookup_u_encoding_roundtrip :
    (∀ a, a < 256 → ∀ b, b < 256 →
      u8mul_decode_triple (u8mul_lookup_u_value a b) = (a, b, a * b))
    ∧ (∀ i, i < 2 ^ 16 →
        u8mul_lookup_t_entry i
          = some (u8mul_lookup_u_value ((i >>> 8) &&& 0xff) (i &&& 0xff)))
    ∧ (∀ a, a < 256 → ∀ b, b < 256 → ∀ a2, a2 < 256 → ∀ b2, b2 < 256 →
        u8mul_lookup_u_value a b = u8mul_lookup_u_value a2 b2 →
        a = a2 ∧ b = b2 ∧ a * b = a2 * b2) := by
  refine ⟨u8mul_decode_lookup_u, ?_, ?_⟩
  · intro i hi
    have hidx := u8mul_index_roundtrip i hi
    simp only [u8mul_lookup_index_of_row] at hidx
    simp only [u8mul_lookup_t_entry, u8mul_lookup_u_value]
    rw [if_pos hidx]
  · intro a ha b hb a2 ha2 b2 hb2 heq
    have d1 := u8mul_decode_lookup_u a ha b hb
    have d2 := u8mul_decode_lookup_u a2 ha2 b2 hb2
    rw [heq, d2] at d1
    simp only [Prod.mk.injEq] at d1
    exact ⟨d1.1.symm, d1.2.1.symm, d1.2.2.symm⟩

/-- C7 witness: the spec's own test row, a = 3 and b = 5, giving the
combined value with lookup index 773 and product 15. -/
theorem c7_witness :
    u8mul_decode_triple (u8mul_lookup_u_value 3 5) = (3, 5, 15) := by
  have h := c7_lookup_u_encoding_roundtrip.1 3 (by norm_num) 5 (by norm_num)
  norm_num at h
  exact h

/-! ## C2 / C10: packed extension-base multiplication -/

theorem list_ext_getD {β : Type} [Inhabited β] (l1 l2 : List β)
    (hlen : l1.length = l2.length)
    (h : ∀ c, c < l1.length → l1.getD c default = l2.getD c default) : l1 = l2 := by
  apply List.ext_getElem hlen
  intro n h1 h2
  have hd := h n h1
  rwa [List.getD_eq_getElem _ _ h1, List.getD_eq_getElem _ _ h2] at hd

theorem getD_range_map {β : Type} (f : Nat → β) (n i : Nat) (d : β) (h : i < n) :
    ((List.range n).map f).getD i d = f i := by
  rw [List.getD_eq_getElem _ _ (by simpa using h), List.getElem_map, List.getElem_range]

theorem getD_map_of_lt {β γ : Type} (f : β → γ) (l : List β) (c : Nat) (d : γ) (d2 : β)
    (h : c < l.length) :
    (l.map f).getD c d = f (l.getD c d2) := by
  rw [List.getD_eq_getElem _ _ (by simpa using h), List.getElem_map,
    List.getD_eq_getElem _ _ h]

theorem getD_zipWith_of_lt {β : Type} (f : β → β → β) (as bs : List β) (k : Nat)
    (d d1 d2 : β) (h1 : k < as.length) (h2 : k < bs.length) :
    (List.zipWith f as bs).getD k d = f (as.getD k d1) (bs.getD k d2) := by
  rw [List.getD_eq_getElem _ _ (by rw [List.length_zipWith]; omega), List.getElem_zipWith,
    List.getD_eq_getElem _ _ h1, List.getD_eq_getElem _ _ h2]

theorem ext_base_mul_pointwise {B : Type} [Mul B] [Inhabited B] (We D : Nat)
    (hWe : 0 < We) (hD : 0 < D)
    (lhs : List (List (List B))) (rhs : List (List B))
    (hshape : ∀ e ∈ lhs, e.length = We ∧ ∀ lane ∈ e, lane.length = D)
    (s : Nat) (hs : s < lhs.length * We) :
    get_packed_slice_ext We
        (lhs.mapIdx (fun i lhs_elem =>
          ext_base_mul_op We D lhs_elem (get_rhs_at_pe_idx We D rhs i))) s
      = (get_packed_slice_ext We lhs s).map
          (fun x => x * get_packed_slice_base (We * D) rhs s) := by
  have hi : s / We < lhs.length := by
    rw [Nat.div_lt_iff_lt_mul hWe]
    exact hs
  have hj : s % We < We := Nat.mod_lt s hWe
  have hmem : lhs.getD (s / We) [] ∈ lhs := by
    rw [List.getD_eq_getElem _ _ hi]
    exact List.getElem_mem hi
  obtain ⟨hWlen, hlanes⟩ := hshape _ hmem
  have hjlen : s % We < (lhs.getD (s / We) []).length := by rw [hWlen]; exact hj
  have hlane_mem : (lhs.getD (s / We) []).getD (s % We) [] ∈ lhs.getD (s / We) [] := by
    rw [List.getD_eq_getElem _ _ hjlen]
    exact List.getElem_mem hjlen
  have hDlen : ((lhs.getD (s / We) []).getD (s % We) []).length = D := hlanes _ hlane_mem
  have hmap : (lhs.mapIdx (fun i lhs_elem =>
      ext_base_mul_op We D lhs_elem (get_rhs_at_pe_idx We D rhs i))).getD (s / We) []
      = ext_base_mul_op We D (lhs.getD (s / We) [])
          (get_rhs_at_pe_idx We D rhs (s / We)) := by
    rw [List.getD_eq_getElem _ _ (by rw [List.length_mapIdx]; exact hi),
      List.getElem_mapIdx, List.getD_eq_getElem _ _ hi]
  unfold get_packed_slice_ext
  rw [hmap]
  simp only [ext_base_mul_op, cast_ext]
  rw [getD_range_map _ _ _ _ hj]
  apply list_ext_getD
  · rw [List.length_map, List.length_range, List.length_map, hDlen]
  · intro c hc
    rw [List.length_map, List.length_range] at hc
    rw [getD_range_map _ _ _ _ hc,
      getD_map_of_lt _ _ _ _ default (by rw [hDlen]; exact hc)]
    -- abbreviations for the index arithmetic
    have hcD : c < D := hc
    have hkfull : (s % We) * D + c < We * D := by
      have h1 : (s % We) * D + c < (s % We) * D + D := by omega
      have h2 : (s % We) * D + D = (s % We + 1) * D := (Nat.succ_mul (s % We) D).symm
      have h3 : (s % We + 1) * D ≤ We * D := Nat.mul_le_mul_right D (by omega)
      omega
    have hcb_len : (cast_base D (lhs.getD (s / We) [])).length = We * D := by
      rw [cast_base, List.length_map, List.length_range, hWlen]
    have hbc_len : (get_rhs_at_pe_idx We D rhs (s / We)).length = We * D := by
      simp only [get_rhs_at_pe_idx, spread_unchecked]
      rw [List.length_map, List.length_range]
    rw [getD_zipWith_of_lt _ _ _ _ _ default default
        (by rw [hcb_len]; exact hkfull) (by rw [hbc_len]; exact hkfull)]
    -- index arithmetic used on both factors
    have hkD : ((s % We) * D + c) / D = s % We := by
      rw [Nat.mul_comm (s % We) D, Nat.mul_add_div hD, Nat.div_eq_of_lt hcD, Nat.add_zero]
    have hkM : ((s % We) * D + c) % D = c := by
      rw [Nat.mul_comm (s % We) D, Nat.mul_add_mod, Nat.mod_eq_of_lt hcD]
    -- left factor: the extension lane coordinate
    have hleft : (cast_base D (lhs.getD (s / We) [])).getD ((s % We) * D + c) default
        = ((lhs.getD (s / We) []).getD (s % We) []).getD c default := by
      rw [cast_base]
      rw [getD_range_map _ _ _ _ (by rw [hWlen]; exact hkfull)]
      rw [hkD, hkM]
    -- right factor: the broadcast equals the base scalar at the same index
    have harr : s / We * We / (We * D) = s / (We * D) := by
      rw [Nat.mul_comm We D, Nat.mul_div_mul_right _ _ hWe, Nat.mul_comm D We,
        ← Nat.div_div_eq_div_mul]
    have hblock : s / We * We % (We * D) / We = s / We % D := by
      rw [Nat.mul_comm We D, Nat.mul_mod_mul_right, Nat.mul_div_cancel _ hWe]
    have hbound : (s / We % D) * We + s % We < We * D := by
      have h1 : s / We % D < D := Nat.mod_lt _ hD
      have h2 : (s / We % D) * We + s % We < (s / We % D) * We + We := by omega
      have h3 : (s / We % D) * We + We = (s / We % D + 1) * We := (Nat.succ_mul _ We).symm
      have h4 : (s / We % D + 1) * We ≤ D * We := Nat.mul_le_mul_right We (by omega)
      have h5 : D * We = We * D := Nat.mul_comm D We
      omega
    have hdecomp : s = We * D * (s / We / D) + ((s / We % D) * We + s % We) := by
      have h1 : We * (s / We) + s % We = s := Nat.div_add_mod s We
      have h2 : D * (s / We / D) + s / We % D = s / We := Nat.div_add_mod (s / We) D
      calc s = We * (s / We) + s % We := h1.symm
      _ = We * (D * (s / We / D) + s / We % D) + s % We := by rw [h2]
      _ = We * D * (s / We / D) + ((s / We % D) * We + s % We) := by ring
    have hmodfull : s % (We * D) = (s / We % D) * We + s % We := by
      conv_lhs => rw [hdecomp]
      rw [Nat.mul_add_mod]
      exact Nat.mod_eq_of_lt hbound
    have hdivfull : s / (We * D) = s / We / D := by
      rw [← Nat.div_div_eq_div_mul]
    have hright : (get_rhs_at_pe_idx We D rhs (s / We)).getD ((s % We) * D + c) default
        = get_packed_slice_base (We * D) rhs s := by
      simp only [get_rhs_at_pe_idx, spread_unchecked, get_packed_slice_base]
      rw [getD_range_map _ _ _ _ hkfull]
      rw [hkD, harr, hblock, hmodfull, hdivfull]
    rw [hleft, hright]

/-- C2: for every well-shaped packed extension slice `lhs` and packed base
slice `rhs` with `len(lhs) = len(rhs) * D`, `ext_base_mul` succeeds and
afterwards every extension scalar equals the original extension scalar
multiplied (coordinate-wise, as a vector over the base field) by the base
scalar at the same scalar index, for all packing widths `We` and extension
degrees `D`; and `ext_base_mul_par` produces output identical to
`ext_base_mul`. -/
theorem c2_ext_base_mul_scalarwise {B : Type} [Mul B] [Inhabited B] (We D : Nat)
    (hWe : 0 < We) (hD : 0 < D)
    (lhs : List (List (List B))) (rhs : List (List B))
    (hlen : lhs.length = rhs.length * D)
    (hshape : ∀ e ∈ lhs, e.length = We ∧ ∀ lane ∈ e, lane.length = D)
    (hrhs : ∀ r ∈ rhs, r.length = We * D) :
    (∃ out, ext_base_mul We D lhs rhs = (.ok (), out)
      ∧ ∀ s, s < lhs.length * We →
          get_packed_slice_ext We out s
            = (get_packed_slice_ext We lhs s).map
                (fun x => x * get_packed_slice_base (We * D) rhs s))
    ∧ ext_base_mul_par We D lhs rhs = ext_base_mul We D lhs rhs := by
  have _ := hrhs
  constructor
  · refine ⟨lhs.mapIdx (fun i lhs_elem =>
      ext_base_mul_op We D lhs_elem (get_rhs_at_pe_idx We D rhs i)), ?_, ?_⟩
    · simp only [ext_base_mul, ext_base_op,
        if_neg (show ¬(lhs.length ≠ rhs.length * D) from fun h => h hlen)]
    · exact fun s hs => ext_base_mul_pointwise We D hWe hD lhs rhs hshape s hs
  · rfl

/-- C2 witness at `We = 2`, `D = 2`, two extension elements and one base
element. -/
theorem c2_witness :
    (∃ out, ext_base_mul 2 2
        ([[[1, 2], [3, 4]], [[5, 6], [7, 8]]] : List (List (List Nat)))
        [[10, 20, 30, 40]] = (.ok (), out)
      ∧ ∀ s, s < ([[[1, 2], [3, 4]], [[5, 6], [7, 8]]] : List (List (List Nat))).length * 2 →
          get_packed_slice_ext 2 out s
            = (get_packed_slice_ext 2
                ([[[1, 2], [3, 4]], [[5, 6], [7, 8]]] : List (List (List Nat))) s).map
                (fun x => x * get_packed_slice_base (2 * 2) [[10, 20, 30, 40]] s))
    ∧ ext_base_mul_par 2 2
        ([[[1, 2], [3, 4]], [[5, 6], [7, 8]]] : List (List (List Nat))) [[10, 20, 30, 40]]
      = ext_base_mul 2 2
        ([[[1, 2], [3, 4]], [[5, 6], [7, 8]]] : List (List (List Nat))) [[10, 20, 30, 40]] :=
  c2_ext_base_mul_scalarwise 2 2 (by norm_num) (by norm_num) _ _ (by decide) (by decide)
    (by decide)

/-- C10: on any length mismatch both `ext_base_mul` and `ext_base_mul_par`
return the `MismatchedLengths` error and leave the `lhs` buffer unchanged
(the length check precedes any write, so the failure is atomic). -/
theorem c10_ext_base_mul_mismatched_lengths {B : Type} [Mul B] [Inhabited B]
    (We D : Nat) (lhs : List (List (List B))) (rhs : List (List B))
    (hlen : lhs.length ≠ rhs.length * D) :
    ext_base_mul We D lhs rhs = (.error .MismatchedLengths, lhs)
    ∧ ext_base_mul_par We D lhs rhs = (.error .MismatchedLengths, lhs) := by
  constructor
  · simp only [ext_base_mul, ext_base_op, if_pos hlen]
  · simp only [ext_base_mul_par, ext_base_op_par, if_pos hlen]

/-- C10 witness at a concrete mismatched pair. -/
theorem c10_witness :
    ext_base_mul 2 2 ([[[1, 2], [3, 4]]] : List (List (List Nat))) []
      = (.error .MismatchedLengths, [[[1, 2], [3, 4]]])
    ∧ ext_base_mul_par 2 2 ([[[1, 2], [3, 4]]] : List (List (List Nat))) []
      = (.error .MismatchedLengths, [[[1, 2], [3, 4]]]) :=
  c10_ext_base_mul_mismatched_lengths 2 2 _ _ (by decide)

/-! ## C1: fold_chunk refines iterated fold_pair -/

theorem getD_set_ne {β : Type} (l : List β) (i j : Nat) (a d : β) (hij : i ≠ j) :
    (l.set i a).getD j d = l.getD j d := by
  rw [List.getD_eq_getElem?_getD, List.getElem?_set_ne hij, ← List.getD_eq_getElem?_getD]

theorem getD_set_self {β : Type} (l : List β) (i : Nat) (a d : β) (h : i < l.length) :
    (l.set i a).getD i d = a := by
  rw [List.getD_eq_getElem?_getD, List.getElem?_set_self h]
  rfl

theorem foldl_set_fold_go {F : Type} [Inhabited F] (f : Nat → F → F → F) :
    ∀ (n s : Nat) (buf : List F), s + n ≤ buf.length →
      (((List.range' s n).foldl (fun b io =>
          b.set io (f io (b.getD (io <<< 1) default) (b.getD ((io <<< 1) + 1) default))) buf).length
        = buf.length)
      ∧ (∀ j, j < s ∨ s + n ≤ j →
          ((List.range' s n).foldl (fun b io =>
            b.set io (f io (b.getD (io <<< 1) default)
              (b.getD ((io <<< 1) + 1) default))) buf).getD j default
          = buf.getD j default)
      ∧ (∀ j, s ≤ j → j < s + n →
          ((List.range' s n).foldl (fun b io =>
            b.set io (f io (b.getD (io <<< 1) default)
              (b.getD ((io <<< 1) + 1) default))) buf).getD j default
          = f j (buf.getD (2 * j) default) (buf.getD (2 * j + 1) default)) := by
  intro n
  induction n with
  | zero =>
      intro s buf _
      exact ⟨rfl, fun j _ => rfl, fun j h1 h2 => by omega⟩
  | succ n ih =>
      intro s buf hbuf
      have hsh : ∀ m : Nat, m <<< 1 = 2 * m := fun m => by
        rw [Nat.shiftLeft_eq, pow_one, Nat.mul_comm]
      have hslt : s < buf.length := by omega
      rw [List.range'_succ]
      simp only [List.foldl_cons]
      obtain ⟨ih1, ih2, ih3⟩ := ih (s + 1)
        (buf.set s (f s (buf.getD (s <<< 1) default) (buf.getD ((s <<< 1) + 1) default)))
        (by rw [List.length_set]; omega)
      refine ⟨?_, ?_, ?_⟩
      · rw [ih1, List.length_set]
      · intro j hj
        rw [ih2 j (by omega)]
        exact getD_set_ne _ _ _ _ _ (by omega)
      · intro j hjs hjn
        rcases Nat.eq_or_lt_of_le hjs with rfl | hjgt
        · rw [ih2 s (by omega)]
          rw [getD_set_self _ _ _ _ hslt, hsh s]
        · rw [ih3 j (by omega) (by omega)]
          rw [getD_set_ne _ _ _ _ _ (by omega), getD_set_ne _ _ _ _ _ (by omega)]

theorem fold_chunk_round_getD {F : Type} [Add F] [Mul F] [Inhabited F]
    (rs_code : ReedSolomonCode F) (round chunk_index n_remaining_challenges : Nat) (r : F)
    (new_len : Nat) (buf : List F) (hlen : new_len ≤ buf.length) :
    (fold_chunk_round rs_code round chunk_index n_remaining_challenges r new_len buf).length
        = buf.length
    ∧ ∀ j, (fold_chunk_round rs_code round chunk_index n_remaining_challenges r
          new_len buf).getD j default
        = if j < new_len then
            fold_pair rs_code round ((chunk_index <<< (n_remaining_challenges - 1)) + j)
              (buf.getD (2 * j) default, buf.getD (2 * j + 1) default) r
          else buf.getD j default := by
  obtain ⟨h1, h2, h3⟩ := foldl_set_fold_go
    (fun io u v => fold_pair rs_code round
      ((chunk_index <<< (n_remaining_challenges - 1)) + io) (u, v) r)
    new_len 0 buf (by omega)
  have hrange : fold_chunk_round rs_code round chunk_index n_remaining_challenges r new_len buf
      = (List.range' 0 new_len).foldl (fun b io =>
          b.set io ((fun io u v => fold_pair rs_code round
            ((chunk_index <<< (n_remaining_challenges - 1)) + io) (u, v) r) io
            (b.getD (io <<< 1) default) (b.getD ((io <<< 1) + 1) default))) buf := by
    unfold fold_chunk_round
    rw [List.range_eq_range']
  rw [hrange]
  constructor
  · exact h1
  · intro j
    by_cases hj : j < new_len
    · rw [if_pos hj]
      exact h3 j (Nat.zero_le j) (by omega)
    · rw [if_neg hj]
      exact h2 j (by omega)

theorem fold_chunk_go {F : Type} [Add F] [Mul F] [Inhabited F]
    (rs_code : ReedSolomonCode F) (start_round chunk_index : Nat)
    (chs : List F) (vlen : Nat) (hvlen : vlen = 2 ^ chs.length)
    (rest : List F) :
    ∀ (p : Nat) (implbuf specbuf : List F),
      chs.length = p + rest.length →
      rest = chs.drop p →
      implbuf.length = 2 ^ chs.length →
      specbuf.length = 2 ^ (chs.length - p) →
      (∀ j, j < 2 ^ (chs.length - p) →
        implbuf.getD j default = specbuf.getD j default) →
      ((List.range' p rest.length).foldl (fun buf n_challenges_processed =>
          fold_chunk_round rs_code (start_round + n_challenges_processed) chunk_index
            (chs.length - n_challenges_processed)
            (chs.getD n_challenges_processed default)
            ((vlen >>> n_challenges_processed) >>> 1) buf) implbuf).getD 0 default
        = fold_chunk_spec rs_code chunk_index (start_round + p) rest specbuf := by
  induction rest with
  | nil =>
      intro p implbuf specbuf _ _ _ _ h5
      show implbuf.getD 0 default = specbuf.getD 0 default
      exact h5 0 (Nat.pos_pow_of_pos _ (by norm_num))
  | cons r rest ih =>
      intro p implbuf specbuf h1 h2 h3 h4 h5
      have hpk : p < chs.length := by
        simp only [List.length_cons] at h1
        omega
      have hrlen : rest.length = chs.length - p - 1 := by
        simp only [List.length_cons] at h1
        omega
      have hgetp : chs.getD p default = r := by
        have hh : chs[p]? = some r := by
          rw [← List.head?_drop, ← h2]
          rfl
        rw [List.getD_eq_getElem?_getD, hh]
        rfl
      have hpow1 : vlen >>> p = 2 ^ (chs.length - p) := by
        rw [hvlen, Nat.shiftRight_eq_div_pow, Nat.pow_div (by omega) (by norm_num)]
      have hnew : (vlen >>> p) >>> 1 = 2 ^ (chs.length - p - 1) := by
        rw [hpow1, Nat.shiftRight_eq_div_pow, pow_one,
          ← Nat.pow_div (show 1 ≤ chs.length - p by omega) (show 0 < 2 by norm_num), pow_one]
      have hhalf : 2 ^ (chs.length - p) = 2 * 2 ^ (chs.length - p - 1) := by
        rw [← pow_succ']
        congr 1
        omega
      have hspeclen : specbuf.length >>> 1 = 2 ^ (chs.length - p - 1) := by
        rw [h4, Nat.shiftRight_eq_div_pow, pow_one, hhalf,
          Nat.mul_div_cancel_left _ (by norm_num)]
      have hroundlen := (fold_chunk_round_getD rs_code (start_round + p) chunk_index
        (chs.length - p) (chs.getD p default) ((vlen >>> p) >>> 1) implbuf
        (by rw [hnew, h3]; exact Nat.pow_le_pow_right (by norm_num) (by omega))).1
      have hroundget := (fold_chunk_round_getD rs_code (start_round + p) chunk_index
        (chs.length - p) (chs.getD p default) ((vlen >>> p) >>> 1) implbuf
        (by rw [hnew, h3]; exact Nat.pow_le_pow_right (by norm_num) (by omega))).2
      have hinv : ∀ j, j < 2 ^ (chs.length - (p + 1)) →
          (fold_chunk_round rs_code (start_round + p) chunk_index (chs.length - p)
            (chs.getD p default) ((vlen >>> p) >>> 1) implbuf).getD j default
          = ((List.range (specbuf.length >>> 1)).map (fun j =>
              fold_pair rs_code (start_round + p) ((chunk_index <<< rest.length) + j)
                (specbuf.getD (2 * j) default, specbuf.getD (2 * j + 1) default) r)).getD
              j default := by
        intro j hj
        have hj' : j < 2 ^ (chs.length - p - 1) := by
          have he : chs.length - (p + 1) = chs.length - p - 1 := by omega
          rwa [he] at hj
        rw [hroundget j, if_pos (by rw [hnew]; exact hj')]
        rw [getD_range_map _ _ _ _ (by rw [hspeclen]; exact hj')]
        have hb1 : implbuf.getD (2 * j) default = specbuf.getD (2 * j) default := by
          refine h5 _ ?_
          have := hhalf
          omega
        have hb2 : implbuf.getD (2 * j + 1) default = specbuf.getD (2 * j + 1) default := by
          refine h5 _ ?_
          have := hhalf
          omega
        rw [hgetp, hrlen, hb1, hb2]
      have happ := ih (p + 1)
        (fold_chunk_round rs_code (start_round + p) chunk_index (chs.length - p)
          (chs.getD p default) ((vlen >>> p) >>> 1) implbuf)
        ((List.range (specbuf.length >>> 1)).map (fun j =>
          fold_pair rs_code (start_round + p) ((chunk_index <<< rest.length) + j)
            (specbuf.getD (2 * j) default, specbuf.getD (2 * j + 1) default) r))
        (by simp only [List.length_cons] at h1; omega)
        (by rw [← List.tail_drop, ← h2]; rfl)
        (by rw [hroundlen]; exact h3)
        (by rw [List.length_map, List.length_range, hspeclen]; congr 1)
        hinv
      simp only [List.length_cons]
      rw [List.range'_succ]
      simp only [List.foldl_cons]
      rw [show fold_chunk_spec rs_code chunk_index (start_round + p) (r :: rest) specbuf
          = fold_chunk_spec rs_code chunk_index (start_round + p + 1) rest
              ((List.range (specbuf.length >>> 1)).map (fun j =>
                fold_pair rs_code (start_round + p) ((chunk_index <<< rest.length) + j)
                  (specbuf.getD (2 * j) default, specbuf.getD (2 * j + 1) default) r))
          from rfl]
      exact happ

/-- C1: for every code, start round, chunk index, non-empty challenge list
of length k, and values and scratch buffers of length `2^k` with
`start_round + k - 1 < log_dim`, `fold_chunk` returns exactly the scalar
obtained by applying `fold_pair` once per challenge with the claimed
round/index progression, halving the buffer each round and returning final
slot 0. -/
theorem c1_fold_chunk_refines_fold_pair {F : Type} [Add F] [Mul F] [Inhabited F]
    (rs_code : ReedSolomonCode F) (start_round chunk_index : Nat)
    (values folding_challenges scratch_buffer : List F)
    (hne : folding_challenges ≠ [])
    (hlen : values.length = 2 ^ folding_challenges.length)
    (hscratch : scratch_buffer.length = values.length)
    (hround : start_round + folding_challenges.length - 1 < rs_code.log_dim) :
    fold_chunk rs_code start_round chunk_index values folding_challenges scratch_buffer
      = fold_chunk_spec rs_code chunk_index start_round folding_challenges values := by
  have _hne := hne
  have _hscratch := hscratch
  have _hround := hround
  simp only [fold_chunk]
  rw [List.range_eq_range']
  have h := fold_chunk_go rs_code start_round chunk_index folding_challenges values.length
    hlen folding_challenges 0 values values (by omega) (by rw [List.drop_zero]) hlen
    (by simpa using hlen) (fun j _ => rfl)
  rw [Nat.add_zero] at h
  exact h

/-- C1 witness at a concrete code, two challenges, and four values. -/
theorem c1_witness :
    ([5, 7] : List Nat) ≠ []
    ∧ ([1, 2, 3, 4] : List Nat).length = 2 ^ ([5, 7] : List Nat).length
    ∧ ([0, 0, 0, 0] : List Nat).length = ([1, 2, 3, 4] : List Nat).length
    ∧ 0 + ([5, 7] : List Nat).length - 1
        < (⟨2, 1, fun r i => r + i⟩ : ReedSolomonCode Nat).log_dim
    ∧ fold_chunk (⟨2, 1, fun r i => r + i⟩ : ReedSolomonCode Nat) 0 1
        [1, 2, 3, 4] [5, 7] [0, 0, 0, 0]
      = fold_chunk_spec (⟨2, 1, fun r i => r + i⟩ : ReedSolomonCode Nat) 1 0
        [5, 7] [1, 2, 3, 4] :=
  ⟨by decide, by decide, by decide, by decide,
    c1_fold_chunk_refines_fold_pair _ 0 1 _ _ _ (by decide) (by decide) (by decide) (by decide)⟩

/-! ## C3 / C4: batched univariate zerocheck round -/

theorem except_ok_bind {ε α β : Type} (a : α) (k : α → Except ε β) :
    (Except.ok a >>= k) = k a := rfl

theorem except_error_bind {ε α β : Type} (e : ε) (k : α → Except ε β) :
    ((Except.error e : Except ε α) >>= k) = Except.error e := rfl

theorem except_pure_eq {ε α : Type} (a : α) :
    (pure a : Except ε α) = Except.ok a := rfl

theorem mapM_except_error_mem {ε α β : Type} (f : α → Except ε β) :
    ∀ (l : List α) (e : ε), l.mapM f = .error e → ∃ x ∈ l, f x = .error e := by
  intro l
  induction l with
  | nil =>
      intro e h
      rw [List.mapM_nil, except_pure_eq] at h
      exact absurd h (by simp)
  | cons a t ih =>
      intro e h
      rw [List.mapM_cons] at h
      cases hfa : f a with
      | error e2 =>
          rw [hfa] at h
          simp only [except_error_bind, Except.error.injEq] at h
          exact ⟨a, List.mem_cons_self a t, by rw [hfa, h]⟩
      | ok y =>
          rw [hfa] at h
          simp only [except_ok_bind] at h
          cases hmt : t.mapM f with
          | error e2 =>
              rw [hmt] at h
              simp only [except_error_bind, Except.error.injEq] at h
              obtain ⟨x, hx, hxe⟩ := ih e2 hmt
              exact ⟨x, List.mem_cons_of_mem a hx, by rw [hxe, h]⟩
          | ok ys =>
              rw [hmt] at h
              simp only [except_ok_bind, except_pure_eq] at h
              exact absurd h (by simp)

theorem accumulate_transcript_effect {F R : Type} (ops : LagrangeOps F)
    (skip_rounds max_n_vars max_domain_size : Nat)
    (provers : List (UnivariateZerocheckProver F R)) :
    ∀ (t0 : Transcript F) (coeffs0 : List F) (evals0 : LagrangeRoundEvals F)
      (t1 : Transcript F) (coeffs : List F) (A : LagrangeRoundEvals F),
      accumulate_univariate_round ops skip_rounds max_n_vars max_domain_size
          provers t0 coeffs0 evals0 = .ok (t1, coeffs, A) →
      t1.stream = t0.stream ∧ t1.written = t0.written
        ∧ t1.n_sampled = t0.n_sampled + provers.length := by
  induction provers with
  | nil =>
      intro t0 c0 e0 t1 coeffs A h
      rw [show accumulate_univariate_round ops skip_rounds max_n_vars max_domain_size
          ([] : List (UnivariateZerocheckProver F R)) t0 c0 e0 = .ok (t0, c0, e0) from rfl] at h
      simp only [Except.ok.injEq, Prod.mk.injEq] at h
      obtain ⟨ht, -, -⟩ := h
      subst ht
      exact ⟨rfl, rfl, by simp⟩
  | cons p ps ih =>
      intro t0 c0 e0 t1 coeffs A h
      rw [show accumulate_univariate_round ops skip_rounds max_n_vars max_domain_size
            (p :: ps) t0 c0 e0
          = p.execute_univariate_round (skip_rounds + p.n_vars - max_n_vars)
              max_domain_size (t0.stream t0.n_sampled) >>= fun prover_round_evals =>
            ops.add_assign_lagrange e0
                (ops.smul prover_round_evals (t0.stream t0.n_sampled)) >>= fun round_evals2 =>
            accumulate_univariate_round ops skip_rounds max_n_vars max_domain_size ps
              { stream := t0.stream, n_sampled := t0.n_sampled + 1, written := t0.written }
              (c0 ++ [t0.stream t0.n_sampled]) round_evals2 from rfl] at h
      cases hex : p.execute_univariate_round (skip_rounds + p.n_vars - max_n_vars)
          max_domain_size (t0.stream t0.n_sampled) with
      | error e =>
          rw [hex] at h
          simp only [except_error_bind] at h
          exact absurd h (by simp)
      | ok pre =>
          rw [hex] at h
          simp only [except_ok_bind] at h
          cases hadd : ops.add_assign_lagrange e0 (ops.smul pre (t0.stream t0.n_sampled)) with
          | error e =>
              rw [hadd] at h
              simp only [except_error_bind] at h
              exact absurd h (by simp)
          | ok re2 =>
              rw [hadd] at h
              simp only [except_ok_bind] at h
              obtain ⟨h1, h2, h3⟩ := ih
                { stream := t0.stream, n_sampled := t0.n_sampled + 1, written := t0.written }
                (c0 ++ [t0.stream t0.n_sampled]) re2 t1 coeffs A h
              simp only [List.length_cons]
              refine ⟨h1, h2, ?_⟩
              simp only [] at h3
              omega

/-- C3: given that the ordering and skip checks pass and the accumulation
of every prover's scaled univariate round message succeeds with accumulated
message `A` (and prover folds never raise the batcher's internal
`IncorrectZerosPrefixLen`), the call fails with `IncorrectZerosPrefixLen`
exactly when the accumulated zero-prefix length differs from
`min(2^(skip_rounds + min_n_vars - max_n_vars), max_domain_size)`, and on
success the accumulated zero-prefix length equals that value. -/
theorem c3_zeros_prefix_check {F R : Type} (ops : LagrangeOps F)
    (provers : List (UnivariateZerocheckProver F R)) (skip_rounds : Nat)
    (t0 t1 : Transcript F) (coeffs : List F) (A : LagrangeRoundEvals F)
    (hsorted : is_sorted_ascending ((provers.map (fun p => p.n_vars)).reverse) = true)
    (hskip : batch_max_n_vars provers - batch_min_n_vars provers ≤ skip_rounds)
    (hacc : accumulate_univariate_round ops skip_rounds (batch_max_n_vars provers)
        (batch_max_domain_size provers skip_rounds) provers t0 []
        (LagrangeRoundEvals.zeros F (batch_max_domain_size provers skip_rounds))
        = .ok (t1, coeffs, A))
    (hfold : ∀ p ∈ provers, ∀ c,
        p.fold_univariate_round c ≠ .error .IncorrectZerosPrefixLen) :
    (batch_prove_zerocheck_univariate_round ops provers skip_rounds t0
        = .error .IncorrectZerosPrefixLen
      ↔ A.zeros_prefix_len
          ≠ min (2 ^ (skip_rounds + batch_min_n_vars provers - batch_max_n_vars provers))
              (batch_max_domain_size provers skip_rounds))
    ∧ (∀ out, batch_prove_zerocheck_univariate_round ops provers skip_rounds t0 = .ok out →
        A.zeros_prefix_len
          = min (2 ^ (skip_rounds + batch_min_n_vars provers - batch_max_n_vars provers))
              (batch_max_domain_size provers skip_rounds)) := by
  have hshift : (1 : Nat) <<< (skip_rounds + batch_min_n_vars provers - batch_max_n_vars provers)
      = 2 ^ (skip_rounds + batch_min_n_vars provers - batch_max_n_vars provers) := by
    rw [Nat.shiftLeft_eq, Nat.one_mul]
  have hchar : batch_prove_zerocheck_univariate_round ops provers skip_rounds t0
      = if min ((1 : Nat) <<< (skip_rounds + batch_min_n_vars provers - batch_max_n_vars provers))
            (batch_max_domain_size provers skip_rounds) ≠ A.zeros_prefix_len then
          .error .IncorrectZerosPrefixLen
        else
          (provers.mapM (fun prover =>
              prover.fold_univariate_round (t1.stream t1.n_sampled))) >>= fun reduction_provers =>
          .ok ({ univariate_challenge := t1.stream t1.n_sampled,
                 batch_prove_start := { batch_coeffs := coeffs,
                                        reduction_provers := reduction_provers } },
               { stream := t1.stream, n_sampled := t1.n_sampled + 1,
                 written := t1.written ++ [A.evals] }) := by
    simp only [batch_prove_zerocheck_univariate_round]
    rw [hsorted, if_neg (show ¬((!true) = true) by simp),
      if_neg (show ¬(batch_max_n_vars provers - batch_min_n_vars provers > skip_rounds)
        from by omega), hacc]
    rfl
  constructor
  · rw [hchar]
    by_cases hz : min ((1 : Nat) <<< (skip_rounds + batch_min_n_vars provers
        - batch_max_n_vars provers)) (batch_max_domain_size provers skip_rounds)
        ≠ A.zeros_prefix_len
    · rw [if_pos hz]
      rw [hshift] at hz
      exact ⟨fun _ => Ne.symm hz, fun _ => rfl⟩
    · rw [if_neg hz]
      push_neg at hz
      rw [hshift] at hz
      constructor
      · intro h
        exfalso
        cases hmapM : provers.mapM (fun prover =>
            prover.fold_univariate_round (t1.stream t1.n_sampled)) with
        | error e =>
            rw [hmapM] at h
            simp only [except_error_bind, Except.error.injEq] at h
            obtain ⟨x, hx, hxe⟩ := mapM_except_error_mem _ _ _ hmapM
            exact hfold x hx _ (by rw [hxe, h])
        | ok rp =>
            rw [hmapM] at h
            simp only [except_ok_bind] at h
            exact absurd h (by simp)
      · intro hne
        exact absurd hz.symm hne
  · intro out hout
    rw [hchar] at hout
    by_cases hz : min ((1 : Nat) <<< (skip_rounds + batch_min_n_vars provers
        - batch_max_n_vars provers)) (batch_max_domain_size provers skip_rounds)
        ≠ A.zeros_prefix_len
    · rw [if_pos hz] at hout
      exact absurd hout (by simp)
    · push_neg at hz
      rw [hshift] at hz
      exact hz.symm

/-- C3 witness: a concrete single-prover batch whose accumulated zero-prefix
length matches the expected value, so the call does not raise
`IncorrectZerosPrefixLen`. -/
theorem c3_witness :
    batch_prove_zerocheck_univariate_round
        (⟨fun e _ => e, fun _ b => .ok b⟩ : LagrangeOps Nat)
        [⟨1, fun _ => 2, fun _ _ _ => .ok ⟨1, [0, 0]⟩, fun _ => .ok ()⟩]
        0 (⟨fun n => n, 0, []⟩ : Transcript Nat)
      ≠ .error .IncorrectZerosPrefixLen := by
  intro hcontra
  have h := (c3_zeros_prefix_check
    (⟨fun e _ => e, fun _ b => .ok b⟩ : LagrangeOps Nat)
    [⟨1, fun _ => 2, fun _ _ _ => .ok ⟨1, [0, 0]⟩, fun _ => .ok ()⟩]
    0 ⟨fun n => n, 0, []⟩ ⟨fun n => n, 1, []⟩ [0] ⟨1, [0, 0]⟩
    rfl (by decide) rfl
    (by
      intro p hp c
      simp only [List.mem_singleton] at hp
      subst hp
      simp)).1
  exact (h.mp hcontra) rfl

/-- C4: during a successful call, the transcript effect is: the accumulated
Lagrange-evaluation array (of length `max_domain_size`) is appended, then
exactly one further challenge is sampled, and that challenge is the
returned univariate challenge.  (The batching coefficients, one sample per
prover, are drawn before the append, as the final sample count records.) -/
theorem c4_transcript_effect {F R : Type} (ops : LagrangeOps F)
    (provers : List (UnivariateZerocheckProver F R)) (skip_rounds : Nat)
    (t0 t1 : Transcript F) (coeffs : List F) (A : LagrangeRoundEvals F)
    (out : BatchZerocheckUnivariateProveOutput F R) (tfin : Transcript F)
    (hacc : accumulate_univariate_round ops skip_rounds (batch_max_n_vars provers)
        (batch_max_domain_size provers skip_rounds) provers t0 []
        (LagrangeRoundEvals.zeros F (batch_max_domain_size provers skip_rounds))
        = .ok (t1, coeffs, A))
    (hlen : A.evals.length = batch_max_domain_size provers skip_rounds)
    (hok : batch_prove_zerocheck_univariate_round ops provers skip_rounds t0
        = .ok (out, tfin)) :
    tfin.written = t0.written ++ [A.evals]
    ∧ A.evals.length = batch_max_domain_size provers skip_rounds
    ∧ tfin.n_sampled = t0.n_sampled + provers.length + 1
    ∧ out.univariate_challenge = t0.stream (t0.n_sampled + provers.length) := by
  simp only [batch_prove_zerocheck_univariate_round] at hok
  by_cases hs : (!(is_sorted_ascending ((provers.map (fun p => p.n_vars)).reverse))) = true
  · rw [if_pos hs] at hok
    exact absurd hok (by simp)
  · rw [if_neg hs] at hok
    by_cases hk : batch_max_n_vars provers - batch_min_n_vars provers > skip_rounds
    · rw [if_pos hk] at hok
      exact absurd hok (by simp)
    · rw [if_neg hk] at hok
      rw [hacc] at hok
      simp only [except_ok_bind] at hok
      by_cases hz : min ((1 : Nat) <<< (skip_rounds + batch_min_n_vars provers
          - batch_max_n_vars provers)) (batch_max_domain_size provers skip_rounds)
          ≠ A.zeros_prefix_len
      · rw [if_pos hz] at hok
        exact absurd hok (by simp)
      · rw [if_neg hz] at hok
        simp only [Transcript.write_scalar_slice, Transcript.sample] at hok
        cases hmapM : provers.mapM (fun prover =>
            prover.fold_univariate_round (t1.stream t1.n_sampled)) with
        | error e =>
            rw [hmapM] at hok
            simp only [except_error_bind] at hok
            exact absurd hok (by simp)
        | ok rp =>
            rw [hmapM] at hok
            simp only [except_ok_bind, Except.ok.injEq, Prod.mk.injEq] at hok
            obtain ⟨ho, ht⟩ := hok
            obtain ⟨hstream, hwritten, hsampled⟩ := accumulate_transcript_effect ops
              skip_rounds (batch_max_n_vars provers)
              (batch_max_domain_size provers skip_rounds) provers t0 []
              (LagrangeRoundEvals.zeros F (batch_max_domain_size provers skip_rounds))
              t1 coeffs A hacc
            subst ht
            refine ⟨?_, hlen, ?_, ?_⟩
            · show t1.written ++ [A.evals] = t0.written ++ [A.evals]
              rw [hwritten]
            · show t1.n_sampled + 1 = t0.n_sampled + provers.length + 1
              omega
            · rw [← ho]
              show t1.stream t1.n_sampled = t0.stream (t0.n_sampled + provers.length)
              rw [hstream, hsampled]

/-- C4 witness: the same concrete single-prover batch, evaluated. -/
theorem c4_witness :
    (⟨fun n => n, 2, [[0, 0]]⟩ : Transcript Nat).written
        = (⟨fun n => n, 0, []⟩ : Transcript Nat).written
            ++ [(⟨1, [0, 0]⟩ : LagrangeRoundEvals Nat).evals]
    ∧ (⟨1, [0, 0]⟩ : LagrangeRoundEvals Nat).evals.length
        = batch_max_domain_size
            [(⟨1, fun _ => 2, fun _ _ _ => .ok ⟨1, [0, 0]⟩, fun _ => .ok ()⟩ :
              UnivariateZerocheckProver Nat Unit)] 0
    ∧ (⟨fun n => n, 2, [[0, 0]]⟩ : Transcript Nat).n_sampled
        = (⟨fun n => n, 0, []⟩ : Transcript Nat).n_sampled
            + [(⟨1, fun _ => 2, fun _ _ _ => .ok ⟨1, [0, 0]⟩, fun _ => .ok ()⟩ :
              UnivariateZerocheckProver Nat Unit)].length + 1
    ∧ (⟨1, ⟨[0], [()]⟩⟩ : BatchZerocheckUnivariateProveOutput Nat Unit).univariate_challenge
        = (⟨fun n => n, 0, []⟩ : Transcript Nat).stream
            ((⟨fun n => n, 0, []⟩ : Transcript Nat).n_sampled
              + [(⟨1, fun _ => 2, fun _ _ _ => .ok ⟨1, [0, 0]⟩, fun _ => .ok ()⟩ :
                UnivariateZerocheckProver Nat Unit)].length) :=
  c4_transcript_effect
    (⟨fun e _ => e, fun _ b => .ok b⟩ : LagrangeOps Nat)
    [⟨1, fun _ => 2, fun _ _ _ => .ok ⟨1, [0, 0]⟩, fun _ => .ok ()⟩]
    0 ⟨fun n => n, 0, []⟩ ⟨fun n => n, 1, []⟩ [0] ⟨1, [0, 0]⟩
    ⟨1, ⟨[0], [()]⟩⟩ ⟨fun n => n, 2, [[0, 0]]⟩
    rfl rfl rfl
